import Mathlib

/-!
Verification of the `wikipedia_word_freq` core.

Shallow embedding of the two source files of the repository:

* `word_frequency_count.py` — `apply_percentile_threshold`, `get_word_frequency`,
  `normalize_word_frequency`, `crawl_wikipedia_article`;
* `server_main.py` — the `do_POST` post-processing pipeline
  (ignore-list exclusion, normalization, percentile filter, descending sort).

Modelling conventions:

* A Python `Counter` (the frequency table) is modelled by the stream of tokens it
  was built from, a `List String`: the count of a word is `List.count`, the total
  `Counter.total()` is the list's length, and the iteration order of the keys
  (first-insertion order, which `Counter.update` and key deletion both preserve)
  is recovered by `counter_keys`.
* Python floats are modelled as exact rationals `ℚ`; the arithmetic performed —
  `(count / total) * 100` — is exact in `ℚ`, float rounding is out of scope.
* Python `dict`s produced by the pipeline are modelled as association lists
  `List (String × ℕ × ℚ)` in the same key order.
* Texts are ASCII-modelled: `str.lower()` is per-character `Char.toLower`, and the
  word characters of the regex `\w` are `[a-zA-Z0-9_]`.
* Python's `sorted` (a stable sort) is modelled by `List.insertionSort`, which is
  stable for the same "comes before" relation, hence produces the same list.
-/

/-- The keys of `Counter(stream)` in their iteration order: first occurrences,
left to right.  `seen` accumulates the keys already emitted. -/
def counter_keysGo (seen : List String) : List String → List String
  | [] => []
  | x :: xs =>
    if x ∈ seen then counter_keysGo seen xs
    else x :: counter_keysGo (x :: seen) xs

/-- Key iteration order of the `Counter` built from a token stream. -/
def counter_keys (l : List String) : List String := counter_keysGo [] l

/-- A word character in the sense of the regex metacharacter `\b` of
`re.findall(r'\b[a-zA-Z]+\b', ...)`: letters, digits and underscore. -/
def isWordChar (c : Char) : Bool := c.isAlpha || c.isDigit || c == '_'

/-- One step of `maxRuns`: prepend `c` (which satisfies `p`) to the runs `rest`
of the tail `cs` — extending the first run of `rest` when `cs` itself starts with
a `p`-character, and opening a new run otherwise. -/
def maxRunsCons (p : Char → Bool) (c : Char) (cs : List Char)
    (rest : List (List Char)) : List (List Char) :=
  match cs, rest with
  | c2 :: _, r :: rs => if p c2 then (c :: r) :: rs else [c] :: r :: rs
  | _, rest => [c] :: rest

/-- Maximal runs of characters satisfying `p`, in left-to-right order; characters
not satisfying `p` separate runs and are dropped. -/
def maxRuns (p : Char → Bool) : List Char → List (List Char)
  | [] => []
  | c :: cs => if p c then maxRunsCons p c cs (maxRuns p cs) else maxRuns p cs

/-- Embedding of `re.findall(r'\b[a-zA-Z]+\b', text.lower())` from
`get_word_frequency` (`word_frequency_count.py`, line 31).

`text.lower()` is modelled as mapping `Char.toLower` over the characters.  The
word-boundary `\b` matches exactly at the edges of maximal runs of `\w`-characters
(letters, digits, underscore), so a match of `[a-zA-Z]+` flanked by two boundaries
is exactly a maximal `\w`-run consisting solely of letters: a run containing a
digit or an underscore yields no match at all. -/
def tokenize (text : String) : List String :=
  ((maxRuns isWordChar (text.toList.map Char.toLower)).filter
      (fun r => r.all Char.isAlpha)).map
    (fun r => String.mk r)

/-- Embedding of `get_word_frequency` (`word_frequency_count.py`, lines 19–33):
`Counter(words)` is represented by the token stream `words` itself. -/
def get_word_frequency (text : String) : List String :=
  tokenize text

/-- Embedding of `normalize_word_frequency` (`word_frequency_count.py`, lines 35–50):
`total_count = word_frequency.total()` is the length of the token stream, and each
key `word` is mapped to `(count, (count / total_count) * 100)`, in key order. -/
def normalize_word_frequency (wf : List String) : List (String × ℕ × ℚ) :=
  let total_count := wf.length
  (counter_keys wf).map
    (fun word => (word, wf.count word, ((wf.count word : ℚ) / (total_count : ℚ)) * 100))

/-- Embedding of `apply_percentile_threshold` (`word_frequency_count.py`, lines 10–17):
keeps the entries whose percentage `perc` satisfies `perc >= percentile`. -/
def apply_percentile_threshold (word_frequency : List (String × ℕ × ℚ)) (percentile : ℚ) :
    List (String × ℕ × ℚ) :=
  word_frequency.filter (fun e => percentile ≤ e.2.2)

/-- Embedding of `del word_frequency[ignore_word]` guarded by
`if ignore_word in word_frequency` (`server_main.py`, lines 88–90): deleting a key
from a `Counter` removes it entirely (every occurrence in the stream); deleting an
absent key is a no-op, which the filter formulation captures directly. -/
def delete_word (wf : List String) (w : String) : List String :=
  wf.filter (fun x => x ≠ w)

/-- Embedding of `str.lower()` on a single word, modelled per character exactly
as for the document text: lowercase every character. -/
def str_lower (s : String) : String := String.mk (s.toList.map Char.toLower)

/-- Embedding of the exclusion loop of `do_POST` (`server_main.py`, lines 86–90):
the ignore list is lowercased, then each of its words is deleted from the counter. -/
def exclude_words (wf : List String) (ignore_list : List String) : List String :=
  (ignore_list.map str_lower).foldl delete_word wf

/-- Embedding of the post-crawl part of `do_POST` (`server_main.py`, lines 86–102):
exclusion of the ignore list from the counter, then normalization, then the
percentile filter, then a stable sort by decreasing count (`sorted(...,
key=lambda item: item[1][0], reverse=True)`, modelled by the stable
`insertionSort` with "`a` comes before `b` iff `b.count ≤ a.count`"). -/
def do_POST_pipeline (wf : List String) (ignore_list : List String) (percentile : ℚ) :
    List (String × ℕ × ℚ) :=
  let word_frequency := exclude_words wf ignore_list
  let normalized_filtered := normalize_word_frequency word_frequency
  let perc_limited := apply_percentile_threshold normalized_filtered percentile
  perc_limited.insertionSort (fun a b => b.2.1 ≤ a.2.1)

/-- The pipeline in the order claim C1 describes it: normalize first (percentages
against the pre-exclusion total), then exclusion on the normalized entries, then
the percentile filter, then the descending sort.  Stated from the spec's words,
for comparison with `do_POST_pipeline`. -/
def spec_order_pipeline (wf : List String) (ignore_list : List String) (percentile : ℚ) :
    List (String × ℕ × ℚ) :=
  let normalized := normalize_word_frequency wf
  let lowered := ignore_list.map str_lower
  let excluded := normalized.filter (fun e => ¬ lowered.contains e.1)
  let perc_limited := apply_percentile_threshold excluded percentile
  perc_limited.insertionSort (fun a b => b.2.1 ≤ a.2.1)

/-- The mutable state threaded through `crawl_wikipedia_article`: the visited set
(a Python `set`, modelled as the list of its elements, newest first), the shared
frequency table (token stream of all counted pages), and the fetch log — the
sequence of articles for which the function reached the
`print(f"Fetching: {article} ...")` line (`word_frequency_count.py`, line 112)
and called `fetch_wikipedia_page`. -/
structure CrawlState where
  visited : List String
  table : List String
  log : List String
deriving DecidableEq

/-- The link loop of `crawl_wikipedia_article` (`word_frequency_count.py`,
lines 124–127): each link not yet visited is crawled with the decremented depth,
threading the state left to right; `f` is the recursive call at depth `depth - 1`. -/
def crawl_list (f : String → CrawlState → CrawlState) (links : List String)
    (st : CrawlState) : CrawlState :=
  links.foldl (fun s link => if link ∈ s.visited then s else f link s) st

/-- Embedding of `crawl_wikipedia_article` (`word_frequency_count.py`,
lines 84–127).  The Python function mutates `visited` and `word_frequency` in
place and returns `None`; here the state is passed and returned explicitly.
`fetch_wikipedia_page` is the external DocumentSource, a parameter `src`
returning `none` for "not found" (the Python `(None, None)`). Steps, in source
order: return at depth 0; return if already visited; add to `visited`; log and
fetch; return if not found; append the page's tokens to the table; recurse over
the links in order, skipping visited ones. -/
def crawl_wikipedia_article (src : String → Option (String × List String)) :
    Nat → String → CrawlState → CrawlState
  | 0, _, st => st
  | Nat.succ depth, article, st =>
    if article ∈ st.visited then st
    else
      let st1 : CrawlState := ⟨article :: st.visited, st.table, st.log ++ [article]⟩
      match src article with
      | none => st1
      | some (text, links) =>
        crawl_list (crawl_wikipedia_article src depth) links
          ⟨st1.visited, st1.table ++ get_word_frequency text, st1.log⟩

/-- Relation between a crawl state and any state a (sub)crawl can turn it into:
the visited set only grows, the table is only appended to, and the log grows by a
block of pairwise-distinct identifiers that were unvisited before and are visited
after. -/
def StepOk (st st' : CrawlState) : Prop :=
  st.visited ⊆ st'.visited ∧
  (∃ t, st'.table = st.table ++ t) ∧
  ∃ Δ, st'.log = st.log ++ Δ ∧ Δ.Nodup ∧ ∀ x ∈ Δ, x ∉ st.visited ∧ x ∈ st'.visited

theorem StepOk.rfl (st : CrawlState) : StepOk st st :=
  ⟨fun _ h => h, ⟨[], (List.append_nil _).symm⟩,
   ⟨[], (List.append_nil _).symm, List.nodup_nil, by simp⟩⟩

theorem StepOk.trans {s1 s2 s3 : CrawlState} (h1 : StepOk s1 s2) (h2 : StepOk s2 s3) :
    StepOk s1 s3 := by
  obtain ⟨hv1, ⟨t1, ht1⟩, Δ1, hl1, hn1, hm1⟩ := h1
  obtain ⟨hv2, ⟨t2, ht2⟩, Δ2, hl2, hn2, hm2⟩ := h2
  refine ⟨fun x hx => hv2 (hv1 hx), ⟨t1 ++ t2, by rw [ht2, ht1, List.append_assoc]⟩,
    ⟨Δ1 ++ Δ2, by rw [hl2, hl1, List.append_assoc], ?_, ?_⟩⟩
  · rw [List.nodup_append]
    refine ⟨hn1, hn2, fun x hx1 hx2 => ?_⟩
    exact ((hm2 x hx2).1 ((hm1 x hx1).2))
  · intro x hx
    rcases List.mem_append.mp hx with hx1 | hx2
    · exact ⟨(hm1 x hx1).1, hv2 (hm1 x hx1).2⟩
    · exact ⟨fun hv => (hm2 x hx2).1 (hv1 hv), (hm2 x hx2).2⟩

theorem crawl_list_stepOk (f : String → CrawlState → CrawlState)
    (hf : ∀ a s, StepOk s (f a s)) :
    ∀ links st, StepOk st (crawl_list f links st) := by
  intro links
  induction links with
  | nil => intro st; exact StepOk.rfl st
  | cons l ls ih =>
    intro st
    show StepOk st (crawl_list f ls (if l ∈ st.visited then st else f l st))
    by_cases h : l ∈ st.visited
    · rw [if_pos h]; exact ih st
    · rw [if_neg h]; exact (hf l st).trans (ih (f l st))

theorem crawl_stepOk (src : String → Option (String × List String)) :
    ∀ (depth : Nat) (article : String) (st : CrawlState),
      StepOk st (crawl_wikipedia_article src depth article st) := by
  intro depth
  induction depth with
  | zero => intro article st; exact StepOk.rfl st
  | succ d ih =>
    intro article st
    show StepOk st (crawl_wikipedia_article src (d + 1) article st)
    rw [crawl_wikipedia_article]
    by_cases hv : article ∈ st.visited
    · rw [if_pos hv]; exact StepOk.rfl st
    · rw [if_neg hv]
      have h1 : StepOk st ⟨article :: st.visited, st.table, st.log ++ [article]⟩ :=
        ⟨fun x hx => List.mem_cons_of_mem _ hx, ⟨[], (List.append_nil _).symm⟩,
         ⟨[article], Eq.refl _, List.nodup_singleton _, by
            intro x hx
            rw [List.mem_singleton] at hx
            subst hx
            exact ⟨hv, List.mem_cons_self _ _⟩⟩⟩
      cases hsrc : src article with
      | none => exact h1
      | some tl =>
        refine h1.trans (StepOk.trans ?_
          (crawl_list_stepOk (crawl_wikipedia_article src d) (fun a s => ih a s) tl.2 _))
        exact ⟨fun x hx => hx, ⟨get_word_frequency tl.1, Eq.refl _⟩,
          ⟨[], (List.append_nil _).symm, List.nodup_nil, by simp⟩⟩

/-- C5. For every frequency table whose total count is zero, `normalize` returns
the empty mapping: the key set is empty, so the comprehension performs no division
at all — the empty-crawl case yields an empty result, not a numeric failure. -/
theorem normalize_word_frequency_total_zero (wf : List String)
    (h : wf.length = 0) : normalize_word_frequency wf = [] := by
  rw [List.length_eq_zero] at h
  subst h
  rfl

/-- Witness for C5 at the empty table. -/
theorem normalize_word_frequency_total_zero_witness :
    ([] : List String).length = 0 ∧ normalize_word_frequency [] = [] :=
  ⟨rfl, normalize_word_frequency_total_zero [] rfl⟩

/-- C7. The percentile filter keeps exactly the entries whose percentage is at
least the threshold: an entry is in the output iff it is in the input and its
percentage is ≥ the threshold (inclusive boundary). -/
theorem apply_percentile_threshold_mem (entries : List (String × ℕ × ℚ)) (percentile : ℚ)
    (e : String × ℕ × ℚ) :
    e ∈ apply_percentile_threshold entries percentile ↔ e ∈ entries ∧ percentile ≤ e.2.2 := by
  simp [apply_percentile_threshold, List.mem_filter]

/-- C3. A crawl invoked with depth 0 on initially empty accumulators returns
immediately: the frequency table and the visited set stay empty, and the fetch
log is empty — the root document is never fetched, even if unvisited. -/
theorem crawl_depth_zero (src : String → Option (String × List String)) (article : String) :
    (crawl_wikipedia_article src 0 article ⟨[], [], []⟩).table = [] ∧
    (crawl_wikipedia_article src 0 article ⟨[], [], []⟩).visited = [] ∧
    (crawl_wikipedia_article src 0 article ⟨[], [], []⟩).log = [] :=
  ⟨Eq.refl _, Eq.refl _, Eq.refl _⟩

/-- C4. For every document source (hence every finite link graph, cyclic ones
included — `src` may link articles arbitrarily, with self-links and mutual links),
every depth, every root and every initial visited set and table, the crawl
terminates (it is a total function, structurally recursive on the depth) and its
fetch log contains no duplicates: no identifier is ever fetched or processed
twice within one crawl, because each identifier enters the visited set before its
links are recursed into. -/
theorem crawl_fetch_nodup (src : String → Option (String × List String))
    (depth : Nat) (article : String) (visited table : List String) :
    ((crawl_wikipedia_article src depth article ⟨visited, table, []⟩).log).Nodup := by
  obtain ⟨-, -, Δ, hl, hn, -⟩ := crawl_stepOk src depth article ⟨visited, table, []⟩
  rw [hl]
  exact hn

/-- C6. If the document source reports "not found" for the root of a fresh
crawl, the crawl returns normally (no error to the caller — the embedding's
`none` branch yields a state, it has no failure channel, matching the Python
`return` after `fetch_wikipedia_page` yields `(None, None)`): the frequency
table remains empty and the root identifier is recorded in the visited set, so
it is never retried within the crawl. -/
theorem crawl_root_not_found (src : String → Option (String × List String))
    (article : String) (d : Nat) (h : src article = none) :
    crawl_wikipedia_article src (d + 1) article ⟨[], [], []⟩ =
      ⟨[article], [], [article]⟩ := by
  rw [crawl_wikipedia_article]
  rw [if_neg (List.not_mem_nil article)]
  rw [h]
  rfl

/-- Witness for C6: a source that finds nothing, crawled from root "A" at depth 1. -/
theorem crawl_root_not_found_witness :
    (fun _ : String => (none : Option (String × List String))) "A" = none ∧
    crawl_wikipedia_article (fun _ => none) 1 "A" ⟨[], [], []⟩ = ⟨["A"], [], ["A"]⟩ :=
  ⟨Eq.refl _, crawl_root_not_found (fun _ => none) "A" 0 (Eq.refl _)⟩

/-- C10. Every crawl invocation only grows its accumulators, regardless of
depth, visited state, or whether documents are found: every word's count in the
frequency table after the call is at least its count before, no key is removed
(a removal would strictly decrease a count), and the visited set after the call
is a superset of the visited set before. -/
theorem crawl_accumulators_grow (src : String → Option (String × List String))
    (depth : Nat) (article : String) (st : CrawlState) :
    (∀ w, st.table.count w ≤ (crawl_wikipedia_article src depth article st).table.count w) ∧
    st.visited ⊆ (crawl_wikipedia_article src depth article st).visited := by
  obtain ⟨hv, ⟨t, ht⟩, -⟩ := crawl_stepOk src depth article st
  refine ⟨fun w => ?_, hv⟩
  rw [ht, List.count_append]
  exact Nat.le_add_right _ _

/-- Evaluation of `Char.ofNat` at a valid code point: it returns that code point. -/
theorem char_ofNat_toNat_eq (n : Nat) (h : n.isValidChar) :
    (Char.ofNat n).val.toNat = n := by
  rw [Char.ofNat, dif_pos h]
  rfl

/-- Characters are equal iff their code points are. -/
theorem char_eq_iff_toNat {a b : Char} : a = b ↔ a.toNat = b.toNat :=
  ⟨fun h => by rw [h], fun h => Char.ext (UInt32.eq_of_toBitVec_eq (BitVec.eq_of_toNat_eq h))⟩

/-- Lowercasing preserves being a letter: `Char.toLower` maps `A`–`Z` into
`a`–`z` and fixes every other character. -/
theorem isAlpha_toLower (c : Char) : (Char.toLower c).isAlpha = c.isAlpha := by
  unfold Char.toLower
  by_cases h : Char.toNat c ≥ 65 ∧ Char.toNat c ≤ 90
  · rw [if_pos h]
    obtain ⟨h1, h2⟩ := h
    have hv : (Char.toNat c + 32).isValidChar := by
      left
      omega
    have hval : (Char.ofNat (Char.toNat c + 32)).val.toBitVec.toNat = Char.toNat c + 32 :=
      char_ofNat_toNat_eq _ hv
    rw [Bool.eq_iff_iff]
    simp only [Char.isAlpha, Char.isUpper, Char.isLower, Bool.or_eq_true, Bool.and_eq_true,
      decide_eq_true_eq, ge_iff_le, UInt32.le_def, BitVec.le_def]
    rw [hval]
    have hc : c.val.toBitVec.toNat = Char.toNat c := Eq.refl _
    rw [hc]
    have e65 : (65 : UInt32).toBitVec.toNat = 65 := Eq.refl _
    have e90 : (90 : UInt32).toBitVec.toNat = 90 := Eq.refl _
    have e97 : (97 : UInt32).toBitVec.toNat = 97 := Eq.refl _
    have e122 : (122 : UInt32).toBitVec.toNat = 122 := Eq.refl _
    rw [e65, e90, e97, e122]
    omega
  · rw [if_neg h]

/-- Lowercasing preserves being a word character (letter, digit or underscore). -/
theorem isWordChar_toLower (c : Char) : isWordChar (Char.toLower c) = isWordChar c := by
  unfold isWordChar
  unfold Char.toLower
  by_cases h : Char.toNat c ≥ 65 ∧ Char.toNat c ≤ 90
  · rw [if_pos h]
    obtain ⟨h1, h2⟩ := h
    have hv : (Char.toNat c + 32).isValidChar := by
      left
      omega
    have hval : (Char.ofNat (Char.toNat c + 32)).val.toBitVec.toNat = Char.toNat c + 32 :=
      char_ofNat_toNat_eq _ hv
    rw [Bool.eq_iff_iff]
    simp only [Char.isAlpha, Char.isUpper, Char.isLower, Char.isDigit, Bool.or_eq_true,
      Bool.and_eq_true, decide_eq_true_eq, ge_iff_le, UInt32.le_def, BitVec.le_def,
      beq_iff_eq, char_eq_iff_toNat]
    have hund : Char.toNat (Char.ofNat (Char.toNat c + 32)) = Char.toNat c + 32 := hval
    rw [hund]
    have hc : c.val.toBitVec.toNat = Char.toNat c := Eq.refl _
    rw [hc]
    have e48 : (48 : UInt32).toBitVec.toNat = 48 := Eq.refl _
    have e57 : (57 : UInt32).toBitVec.toNat = 57 := Eq.refl _
    have e65 : (65 : UInt32).toBitVec.toNat = 65 := Eq.refl _
    have e90 : (90 : UInt32).toBitVec.toNat = 90 := Eq.refl _
    have e97 : (97 : UInt32).toBitVec.toNat = 97 := Eq.refl _
    have e122 : (122 : UInt32).toBitVec.toNat = 122 := Eq.refl _
    have eund : Char.toNat (Char.mk 95 (by decide)) = 95 := Eq.refl _
    rw [e48, e57, e65, e90, e97, e122]
    omega
  · rw [if_neg h]

/-- Splitting into maximal word-character runs commutes with lowercasing, since
lowercasing preserves word-character-hood. -/
theorem maxRunsCons_map_toLower (c : Char) (cs : List Char) (rest : List (List Char)) :
    maxRunsCons isWordChar (Char.toLower c) (cs.map Char.toLower)
        (rest.map (List.map Char.toLower)) =
      (maxRunsCons isWordChar c cs rest).map (List.map Char.toLower) := by
  cases cs with
  | nil => cases rest <;> rfl
  | cons c2 cs2 =>
    cases rest with
    | nil => rfl
    | cons r rs =>
      rw [List.map_cons, List.map_cons]
      change
        (if isWordChar (Char.toLower c2) = true then
            (Char.toLower c :: r.map Char.toLower) :: rs.map (List.map Char.toLower)
          else [Char.toLower c] :: r.map Char.toLower :: rs.map (List.map Char.toLower)) =
          List.map (List.map Char.toLower)
            (if isWordChar c2 = true then (c :: r) :: rs else [c] :: r :: rs)
      rw [isWordChar_toLower]
      by_cases hc2 : isWordChar c2
      · rw [if_pos hc2, if_pos hc2]
        rfl
      · rw [if_neg hc2, if_neg hc2]
        rfl

theorem maxRuns_map_toLower (l : List Char) :
    maxRuns isWordChar (l.map Char.toLower) =
      (maxRuns isWordChar l).map (List.map Char.toLower) := by
  induction l with
  | nil => rfl
  | cons c cs ih =>
    rw [List.map_cons, maxRuns, maxRuns, isWordChar_toLower, ih]
    by_cases hc : isWordChar c
    · rw [if_pos hc, if_pos hc, maxRunsCons_map_toLower]
    · rw [if_neg hc, if_neg hc]

/-- C2 (amended). `tokenize` extracts every maximal run of *word* characters
(letters, digits, underscores — the `\w`-runs whose edges carry the `\b`
boundaries) that consists solely of alphabetic characters, case-folds it to
lowercase, and preserves the left-to-right order of occurrence.  Punctuation and
whitespace act as separators, but a letter-run adjacent to a digit or underscore
is part of a mixed word-character run and produces no token. -/
theorem tokenize_maximal_alpha_runs (text : String) :
    tokenize text =
      ((maxRuns isWordChar text.toList).filter (fun r => r.all Char.isAlpha)).map
        (fun r => String.mk (r.map Char.toLower)) := by
  unfold tokenize
  rw [maxRuns_map_toLower]
  rw [List.filter_map]
  rw [List.map_map]
  congr 1
  apply List.filter_congr
  intro r hr
  show (r.map Char.toLower).all Char.isAlpha = r.all Char.isAlpha
  rw [List.all_map]
  have : (Char.isAlpha ∘ Char.toLower) = Char.isAlpha := by
    funext c
    exact isAlpha_toLower c
  rw [this]

/-- C2 (counterexample). The claim says digits act purely as separators, so
`tokenize "a1"` would have to produce the token `"a"`; in fact the letter run
`a` is not flanked by word boundaries on both sides (`a` and `1` are both
`\w`-characters), so `re.findall(r'\b[a-zA-Z]+\b', "a1")` finds nothing. -/
theorem tokenize_digit_separator_counterexample :
    tokenize "a1" = [] ∧ tokenize "a1" ≠ ["a"] := by
  constructor
  · decide
  · decide

theorem mem_counter_keysGo (l : List String) :
    ∀ (seen : List String) (x : String),
      x ∈ counter_keysGo seen l ↔ x ∈ l ∧ x ∉ seen := by
  induction l with
  | nil => intro seen x; simp [counter_keysGo]
  | cons y ys ih =>
    intro seen x
    rw [counter_keysGo]
    by_cases hy : y ∈ seen
    · rw [if_pos hy, ih]
      simp only [List.mem_cons]
      constructor
      · rintro ⟨h1, h2⟩
        exact ⟨Or.inr h1, h2⟩
      · rintro ⟨h | h1, h2⟩
        · rw [h] at h2
          exact absurd hy h2
        · exact ⟨h1, h2⟩
    · rw [if_neg hy]
      simp only [List.mem_cons, ih]
      constructor
      · rintro (h | ⟨h1, h2⟩)
        · refine ⟨Or.inl h, ?_⟩
          rw [h]
          exact hy
        · exact ⟨Or.inr h1, fun hs => h2 (Or.inr hs)⟩
      · rintro ⟨h | h1, h2⟩
        · exact Or.inl h
        · by_cases hxy : x = y
          · exact Or.inl hxy
          · refine Or.inr ⟨h1, ?_⟩
            rintro (hc | hc)
            · exact hxy hc
            · exact h2 hc

theorem nodup_counter_keysGo (l : List String) :
    ∀ seen : List String, (counter_keysGo seen l).Nodup := by
  induction l with
  | nil => intro seen; exact List.nodup_nil
  | cons y ys ih =>
    intro seen
    rw [counter_keysGo]
    by_cases hy : y ∈ seen
    · rw [if_pos hy]; exact ih seen
    · rw [if_neg hy]
      refine List.nodup_cons.mpr ⟨fun hmem => ?_, ih (y :: seen)⟩
      exact ((mem_counter_keysGo ys (y :: seen) y).mp hmem).2 (List.mem_cons_self _ _)

/-- A word is a key of the counter iff it occurs in the stream. -/
theorem counter_keys_mem (l : List String) (x : String) :
    x ∈ counter_keys l ↔ x ∈ l := by
  rw [counter_keys, mem_counter_keysGo]
  simp

/-- Counter keys are pairwise distinct. -/
theorem counter_keys_nodup (l : List String) : (counter_keys l).Nodup :=
  nodup_counter_keysGo l []

/-- C8. For every non-empty frequency table, the percentages produced by
`normalize` sum to exactly 100 (the model computes in ℚ, so "within
floating-point rounding tolerance" sharpens to exact equality): each percentage
is `100 * count / total` with `total` the sum of all counts. -/
theorem normalize_percentages_sum_100 (wf : List String) (h : wf ≠ []) :
    ((normalize_word_frequency wf).map (fun e => e.2.2)).sum = 100 := by
  have hnd : (counter_keys wf).Nodup := counter_keys_nodup wf
  have hfs : (counter_keys wf).toFinset = wf.toFinset := by
    ext x
    rw [List.mem_toFinset, List.mem_toFinset, counter_keys_mem]
  have hL : (wf.length : ℚ) ≠ 0 := by
    rw [Nat.cast_ne_zero]
    intro h0
    exact h (List.length_eq_zero.mp h0)
  unfold normalize_word_frequency
  rw [List.map_map]
  have hcomp : ((fun (e : String × ℕ × ℚ) => e.2.2) ∘
      (fun word => (word, wf.count word, ((wf.count word : ℚ) / (wf.length : ℚ)) * 100))) =
      fun word => ((wf.count word : ℚ) / (wf.length : ℚ)) * 100 := Eq.refl _
  rw [hcomp]
  rw [← List.sum_toFinset _ hnd, hfs]
  have hterm : ∀ w ∈ wf.toFinset,
      ((wf.count w : ℚ) / (wf.length : ℚ)) * 100 = (wf.count w : ℚ) * (100 / (wf.length : ℚ)) :=
    fun w _ => by ring
  rw [Finset.sum_congr (Eq.refl _) hterm, ← Finset.sum_mul]
  have hsum : (∑ w ∈ wf.toFinset, (wf.count w : ℚ)) = (wf.length : ℚ) := by
    rw [← Nat.cast_sum]
    congr 1
    simp
  rw [hsum]
  field_simp

/-- Witness for C8 at the one-token table. -/
theorem normalize_percentages_sum_100_witness :
    (["a"] : List String) ≠ [] ∧
    ((normalize_word_frequency ["a"]).map (fun e => e.2.2)).sum = 100 :=
  ⟨by decide, normalize_percentages_sum_100 ["a"] (by decide)⟩

/-- Folding key deletions over a list of words is one filter: survival means not
being one of the deleted words. -/
theorem foldl_delete_eq_filter (l : List String) :
    ∀ wf : List String, l.foldl delete_word wf = wf.filter (fun x => x ∉ l) := by
  induction l with
  | nil =>
    intro wf
    rw [List.foldl_nil]
    have he : (fun x : String => decide (x ∉ ([] : List String))) = fun _ => true := by
      funext x
      simp
    rw [he, List.filter_true]
  | cons w ws ih =>
    intro wf
    rw [List.foldl_cons, ih, delete_word, List.filter_filter]
    apply List.filter_congr
    intro x _
    by_cases h1 : x = w
    · simp [h1]
    · by_cases h2 : x ∈ ws <;> simp [h1, h2]

/-- The exclusion stage of `do_POST` as a single filter over the counter. -/
theorem exclude_words_eq_filter (wf ignore_list : List String) :
    exclude_words wf ignore_list =
      wf.filter (fun x => x ∉ ignore_list.map str_lower) :=
  foldl_delete_eq_filter _ wf

/-- C9. Exclusion is idempotent: deleting the ignore list's words from a
frequency table twice yields exactly the same table as deleting them once. -/
theorem exclude_words_idempotent (wf ignore_list : List String) :
    exclude_words (exclude_words wf ignore_list) ignore_list =
      exclude_words wf ignore_list := by
  rw [exclude_words_eq_filter, exclude_words_eq_filter, List.filter_filter]
  apply List.filter_congr
  intro x _
  by_cases h : x ∈ ignore_list.map str_lower <;> simp [h]

/-- A word that is not on the (lowercased) ignore list keeps its exact count
through exclusion. -/
theorem count_exclude_words (wf ignore_list : List String) (w : String)
    (h : w ∉ ignore_list.map str_lower) :
    (exclude_words wf ignore_list).count w = wf.count w := by
  rw [exclude_words_eq_filter]
  exact List.count_filter (by simp [h])

/-- Words surviving exclusion are not on the (lowercased) ignore list. -/
theorem mem_exclude_words_not_ignored (wf ignore_list : List String) (w : String)
    (h : w ∈ exclude_words wf ignore_list) : w ∉ ignore_list.map str_lower := by
  rw [exclude_words_eq_filter] at h
  have hf := List.of_mem_filter h
  simp at hf
  rw [List.mem_map]
  rintro ⟨x, hx, hxe⟩
  exact hf x hx hxe

/-- C1 (amended). In the filtered/sorted request pipeline the stages are
applied in the order exclude, then normalize, then percentile-filter, then
sort-descending.  Consequently every entry of the response carries a word that
is not on the (lowercased) ignore list, its exact count from the crawled table,
and a percentage equal to `100 * count / (total count AFTER exclusion)` —
removing ignored words rescales the percentages of the remaining entries. -/
theorem do_POST_pipeline_post_exclusion_percentages (wf ignore_list : List String)
    (percentile : ℚ) (w : String) (c : ℕ) (q : ℚ)
    (h : (w, c, q) ∈ do_POST_pipeline wf ignore_list percentile) :
    w ∉ ignore_list.map str_lower ∧ c = wf.count w ∧
    q = ((c : ℚ) / ((exclude_words wf ignore_list).length : ℚ)) * 100 := by
  simp only [do_POST_pipeline, apply_percentile_threshold, normalize_word_frequency] at h
  have h2 := (List.perm_insertionSort
    (fun a b : String × ℕ × ℚ => b.2.1 ≤ a.2.1) _).mem_iff.mp h
  obtain ⟨h3, -⟩ := List.mem_filter.mp h2
  obtain ⟨word, hwmem, heq⟩ := List.mem_map.mp h3
  rw [Prod.mk.injEq, Prod.mk.injEq] at heq
  obtain ⟨hw, hc, hq⟩ := heq
  subst hw
  have hmem : word ∈ exclude_words wf ignore_list :=
    (counter_keys_mem _ _).mp hwmem
  have hni : word ∉ ignore_list.map str_lower :=
    mem_exclude_words_not_ignored _ _ _ hmem
  refine ⟨hni, ?_, ?_⟩
  · rw [← hc]
    exact count_exclude_words wf ignore_list word hni
  · rw [← hq, ← hc]

/-- Concrete run of the `do_POST` pipeline: table `{a: 1, b: 1}`, ignore list
`["b"]`, percentile 0.  The surviving word `a` is reported at 100%, because the
total is taken after exclusion. -/
theorem do_POST_pipeline_eval_ab :
    do_POST_pipeline ["a", "b"] ["b"] 0 = [("a", 1, 100)] := by
  have e1 : exclude_words ["a", "b"] ["b"] = ["a"] := by decide
  have e2 : normalize_word_frequency ["a"] = [("a", 1, 100)] := by
    show [("a", (1 : ℕ), ((1 : ℕ) : ℚ) / ((1 : ℕ) : ℚ) * 100)] = [("a", 1, 100)]
    norm_num
  have e3 : apply_percentile_threshold [("a", 1, (100 : ℚ))] 0 = [("a", 1, 100)] := by
    norm_num [apply_percentile_threshold]
  simp only [do_POST_pipeline]
  rw [e1, e2, e3]
  rfl

/-- Concrete run of the pipeline composed in the order the claim states
(normalize before exclude): the surviving word `a` is reported at 50%, its
percentage against the pre-exclusion total. -/
theorem spec_order_pipeline_eval_ab :
    spec_order_pipeline ["a", "b"] ["b"] 0 = [("a", 1, 50)] := by
  have e2 : normalize_word_frequency ["a", "b"] = [("a", 1, 50), ("b", 1, 50)] := by
    show [("a", (1 : ℕ), ((1 : ℕ) : ℚ) / ((2 : ℕ) : ℚ) * 100),
          ("b", (1 : ℕ), ((1 : ℕ) : ℚ) / ((2 : ℕ) : ℚ) * 100)] = _
    norm_num
  have e3 : ([("a", (1 : ℕ), (50 : ℚ)), ("b", 1, 50)].filter
      (fun e => ¬ ((["b"] : List String).map str_lower).contains e.1)) = [("a", 1, 50)] :=
    Eq.refl _
  have e4 : apply_percentile_threshold [("a", 1, (50 : ℚ))] 0 = [("a", 1, 50)] := by
    norm_num [apply_percentile_threshold]
  simp only [spec_order_pipeline]
  rw [e2, e3, e4]
  rfl

/-- C1 (counterexample). For the crawled table `{a: 1, b: 1}` with ignore
list `["b"]` and percentile 0, the pipeline reports `a` at 100%, not at
`100 * 1 / 2 = 50%` as the claimed normalize-before-exclude order (percentages
against the pre-exclusion total) would require: the code excludes *before*
normalizing, so removing an ignored word does change the remaining
percentages. -/
theorem do_POST_pipeline_order_counterexample :
    do_POST_pipeline ["a", "b"] ["b"] 0 = [("a", 1, 100)] ∧
    spec_order_pipeline ["a", "b"] ["b"] 0 = [("a", 1, 50)] ∧
    (100 : ℚ) ≠ 100 * 1 / 2 :=
  ⟨do_POST_pipeline_eval_ab, spec_order_pipeline_eval_ab, by norm_num⟩

/-- Witness for C1 (amended) at the table `{a: 1, b: 1}`, ignore list `["b"]`,
percentile 0. -/
theorem do_POST_pipeline_post_exclusion_percentages_witness :
    ("a", 1, (100 : ℚ)) ∈ do_POST_pipeline ["a", "b"] ["b"] 0 ∧
    ("a" ∉ (["b"] : List String).map str_lower ∧
      1 = (["a", "b"] : List String).count "a" ∧
      (100 : ℚ) = (((1 : ℕ) : ℚ) / ((exclude_words ["a", "b"] ["b"]).length : ℚ)) * 100) := by
  have hmem : ("a", 1, (100 : ℚ)) ∈ do_POST_pipeline ["a", "b"] ["b"] 0 := by
    rw [do_POST_pipeline_eval_ab]
    exact List.mem_singleton.mpr (Eq.refl _)
  exact ⟨hmem,
    do_POST_pipeline_post_exclusion_percentages ["a", "b"] ["b"] 0 "a" 1 100 hmem⟩
